import Mathlib

/-!
Verification of the crawl-state machine and content-compression engine of
`site2llms.py` (a documentation-site crawler that emits a single compressed
text corpus).

Shallow embedding conventions:
* Python strings are modelled as `List Char` (`Str`).  All string
  manipulation used by the source (`strip`, `rstrip`, `splitlines`,
  `split`, `startswith`, `join`, the regular expressions of the noise
  classifier and of layout normalisation) is translated to executable
  functions on `List Char`, restricted to `'\n'` line endings and the
  ASCII behaviour of `str.lower` / `\d` / `\w` (all inputs appearing in
  the claims are ASCII).
* `hashlib.md5(text).hexdigest()` is used by the source purely as a
  dictionary key for a block's stripped text; it is modelled by the
  stripped text itself (an injective stand-in for the hash).
* `urllib.parse.urlparse` is modelled faithfully after CPython's
  `urlsplit` + parameter splitting (scheme detection with `scheme_chars`,
  netloc after a leading `//` up to the first of `/?#`, fragment split at
  the first `#`, query at the first `?`, and `;`-parameter splitting on
  the last path segment for schemes in `uses_params`).  The model omits
  the removal of tab/CR/LF bytes (no claim exercises control
  characters).  `urlsplitM`/`urlparseM`/`clean_url` are the non-raising
  computation; the `ValueError("Invalid IPv6 URL")` that `urlsplit`
  raises when the netloc taken after `//` contains `[` without `]` or
  `]` without `[` is modelled by `urlsplitE`/`urlparseE`/`clean_urlE`,
  which return `none` exactly on the raising inputs and otherwise the
  non-raising result.  (The stricter bracketed-host content validation
  added in newer CPython is outside the model.)  The crawl loop and
  `is_in_scope` are stated over the non-raising computation: on a
  raising URL the program would abort (outside the crawl-loop claims).
* Network effects (`requests.get`, BeautifulSoup, markdownify) are an
  external collaborator: a `World` supplies, per URL, the result of
  `fetch_and_convert` and the list of absolute link targets produced by
  the link-discovery fetch.  The crawl loop `generate_llms_txt` becomes a
  step function on an explicit `CrawlState`; the fields `fetched` and
  `linkFetched` are event logs recording which URLs were passed to the
  content fetch and to the link-discovery fetch, used only to state
  properties.
-/

abbrev Str := List Char

/-! ## Python string primitives -/

/-- The character class of Python's `str.strip()` (ASCII whitespace). -/
def pyIsSpace (c : Char) : Bool :=
  c = ' ' || c = '\t' || c = '\n' || c = '\r' || c = '\x0b' || c = '\x0c'

/-- `str.lstrip()`. -/
def pyLstrip (l : Str) : Str := l.dropWhile pyIsSpace

/-- `str.rstrip()`. -/
def pyRstrip (l : Str) : Str := (l.reverse.dropWhile pyIsSpace).reverse

/-- `str.strip()`. -/
def pyStrip (l : Str) : Str := pyRstrip (pyLstrip l)

/-- `str.split(sep)` for a single-character separator (keeps empty pieces). -/
def splitOnCharL (c : Char) : Str → List Str
  | [] => [[]]
  | x :: xs =>
    let r := splitOnCharL c xs
    if x = c then [] :: r
    else
      match r with
      | h :: t => (x :: h) :: t
      | [] => [[x]]

/-- `str.splitlines()` restricted to `'\n'` boundaries: like splitting on
`'\n'`, except that a trailing newline yields no final empty line and the
empty string has no lines. -/
def pySplitlines (l : Str) : List Str :=
  if l = [] then []
  else if l.getLast? = some '\n' then (splitOnCharL '\n' l).dropLast
  else splitOnCharL '\n' l

/-- `"\n".join(lines)`. -/
def joinNL (lines : List Str) : Str := List.intercalate ['\n'] lines

/-- `str.lower()` (ASCII). -/
def lowerL (l : Str) : Str := l.map Char.toLower

/-- The backquote character that opens a Markdown code fence. -/
def backquote : Char := Char.ofNat 96

/-- `block.startswith(c)` for a single character. -/
def startsWithChar (c : Char) : Str → Bool
  | [] => false
  | x :: _ => x = c

/-! ## ContextCompressor.normalize_layout -/

/-- Worker for `re.sub(r'\n{3,}', '\n\n', text)`: `k` counts the newlines
just emitted; once two consecutive newlines have been emitted, further
newlines of the same run are skipped, so every maximal run of three or
more newlines collapses to exactly two and shorter runs are unchanged. -/
def collapseNLGo : Nat → Str → Str
  | _, [] => []
  | k, c :: rest =>
    if c = '\n' then
      if 2 ≤ k then collapseNLGo k rest
      else '\n' :: collapseNLGo (k + 1) rest
    else c :: collapseNLGo 0 rest

/-- `re.sub(r'\n{3,}', '\n\n', text)`. -/
def collapseNL (l : Str) : Str := collapseNLGo 0 l

/-- `ContextCompressor.normalize_layout`: right-strip every line, rejoin
with `'\n'`, collapse runs of 3+ newlines to 2, strip the whole text;
empty input returns empty immediately. -/
def normalize_layout (text : Str) : Str :=
  if text = [] then []
  else pyStrip (collapseNL (joinNL ((pySplitlines text).map pyRstrip)))

/-! ## ContextCompressor.is_noise -/

/-- The whole-block navigational phrases of the first noise pattern
`^(back to top|read more|next|previous|menu|close)$` (case-insensitive). -/
def noisePhrases : List Str :=
  ["back to top".toList, "read more".toList, "next".toList,
   "previous".toList, "menu".toList, "close".toList]

/-- `re.search(r'^(back to top|...|close)$', s, re.I)` on an
already-stripped block: a case-insensitive whole-string match (the block
has no trailing newline, so `$` can only match at the end). -/
def matchNavPhrase (s : Str) : Bool := noisePhrases.contains (lowerL s)

/-- `re.search(r'^© \d{4}', s)`: the block starts with `©`, a space and
four digits. -/
def matchCopyright : Str → Bool
  | '©' :: ' ' :: a :: b :: c :: d :: _ =>
      a.isDigit && b.isDigit && c.isDigit && d.isDigit
  | _ => false

/-- `re.search(r'^\s*[\W_]+\s*$', s)` on an already-stripped block: since
`\s ⊆ [\W_]`, this holds exactly when the block is nonempty and consists
entirely of characters that are not ASCII letters or digits. -/
def matchSymbols (s : Str) : Bool :=
  !s.isEmpty && s.all (fun c => !(c.isAlpha || c.isDigit))

/-- `ContextCompressor.is_noise`: strip, then short-line check followed by
the three regex patterns in order. -/
def is_noise (line : Str) : Bool :=
  let s := pyStrip line
  if s.length < 3 then true
  else matchNavPhrase s || matchCopyright s || matchSymbols s

/-! ## ContextCompressor.compress -/

/-- The compressor's state: `block_hashes` is the dictionary mapping a
block's hash key (modelled by the stripped text itself) to its occurrence
count, newest binding first; `redundancy_threshold` as in `__init__`. -/
structure ContextCompressor where
  block_hashes : List (Str × Nat)
  redundancy_threshold : Nat
deriving DecidableEq, Repr

/-- `self.block_hashes.get(h, 0)`. -/
def getCount (m : List (Str × Nat)) (k : Str) : Nat := (m.lookup k).getD 0

/-- `str.split('\n\n')`: split on the two-character separator,
non-overlapping and left-to-right, keeping empty pieces. -/
def splitOnNN : Str → List Str
  | [] => [[]]
  | '\n' :: '\n' :: rest => [] :: splitOnNN rest
  | c :: rest =>
    match splitOnNN rest with
    | h :: t => (c :: h) :: t
    | [] => [[c]]

/-- One iteration of the block loop in `ContextCompressor.compress`:
strip the block; skip it if empty or noise; for a block that starts with
neither `#` nor a backquote, read its count, store count+1, and drop the
block when the old count has reached the threshold; headings and code
fences bypass the redundancy check entirely. -/
def processBlock (comp : ContextCompressor) (block0 : Str) :
    ContextCompressor × Option Str :=
  let block := pyStrip block0
  if block = [] then (comp, none)
  else if is_noise block then (comp, none)
  else if !(startsWithChar '#' block) && !(startsWithChar backquote block) then
    let current_count := getCount comp.block_hashes block
    let comp2 : ContextCompressor :=
      { comp with block_hashes := (block, current_count + 1) :: comp.block_hashes }
    if comp.redundancy_threshold ≤ current_count then (comp2, none)
    else (comp2, some block)
  else (comp, some block)

/-- The block loop of `compress` over a list of blocks, returning the
final compressor state and the kept blocks in order. -/
def compressRun (comp : ContextCompressor) : List Str → ContextCompressor × List Str
  | [] => (comp, [])
  | b :: bs =>
    let r := processBlock comp b
    let rest := compressRun r.1 bs
    (rest.1, match r.2 with | some k => k :: rest.2 | none => rest.2)

/-- `ContextCompressor.compress`: empty input returns empty untouched;
otherwise normalise layout, split into blocks on `'\n\n'`, run the block
loop, and rejoin the surviving blocks with `'\n\n'`. -/
def compress (comp : ContextCompressor) (markdown_text : Str) :
    ContextCompressor × Str :=
  if markdown_text = [] then (comp, [])
  else
    let r := compressRun comp (splitOnNN (normalize_layout markdown_text))
    (r.1, List.intercalate ['\n', '\n'] r.2)

/-! ## The model of `urllib.parse.urlparse`

Follows CPython `urllib/parse.py`: `urlsplit` detects a scheme when the
first `:` has a nonempty prefix of `scheme_chars` starting with an ASCII
letter (the scheme is lowercased), takes a netloc after a leading `//` up
to the first of `/?#`, splits the fragment at the first `#` and the query
at the first `?`; `urlparse` additionally splits `;`-parameters off the
last path segment when the scheme is in `uses_params`. -/

/-- Predicate for `takeWhile` up to the first colon. -/
def notColon (c : Char) : Bool := !(c = ':')

/-- Predicate for characters that do not terminate a netloc (`/?#`). -/
def notNetlocEnd (c : Char) : Bool := !(c = '/' || c = '?' || c = '#')

/-- Predicate for `takeWhile` up to the first `#`. -/
def notHash (c : Char) : Bool := !(c = '#')

/-- Predicate for `takeWhile` up to the first `?`. -/
def notQm (c : Char) : Bool := !(c = '?')

/-- Predicate for `takeWhile` up to the first `/`. -/
def notSlash (c : Char) : Bool := !(c = '/')

/-- Predicate for `takeWhile` up to the first `;`. -/
def notSemi (c : Char) : Bool := !(c = ';')

/-- CPython's `scheme_chars`. -/
def schemeChars : Str :=
  "abcdefghijklmnopqrstuvwxyzABCDEFGHIJKLMNOPQRSTUVWXYZ0123456789+-.".toList

/-- Whether a string starts with an ASCII letter (the
`url[0].isascii() and url[0].isalpha()` guard of `urlsplit`). -/
def headIsAlpha : Str → Bool
  | [] => false
  | c :: _ => c.isAlpha

/-- The scheme-detection step of `urlsplit`: returns the (lowercased)
scheme and the remainder after the colon, or an empty scheme and the
whole input. -/
def parseScheme (l : Str) : Str × Str :=
  let pre := l.takeWhile notColon
  if (':' ∈ l) ∧ pre ≠ [] ∧ headIsAlpha pre = true ∧ (∀ c ∈ pre, c ∈ schemeChars)
  then (lowerL pre, (l.dropWhile notColon).drop 1)
  else ([], l)

/-- The result of `urlsplit` (no parameter splitting). -/
structure UrlSplit where
  scheme : Str
  netloc : Str
  path : Str
  query : Str
  fragment : Str
deriving DecidableEq, Repr

/-- Model of `urllib.parse.urlsplit` (with `allow_fragments=True`). -/
def urlsplitM (l : Str) : UrlSplit :=
  let ps := parseScheme l
  let hasNetloc := ps.2.take 2 = ['/', '/']
  let netloc := if hasNetloc then (ps.2.drop 2).takeWhile notNetlocEnd else []
  let r2 := if hasNetloc then (ps.2.drop 2).dropWhile notNetlocEnd else ps.2
  let r3 := r2.takeWhile notHash
  let fragment := (r2.dropWhile notHash).drop 1
  let path := r3.takeWhile notQm
  let query := (r3.dropWhile notQm).drop 1
  ⟨ps.1, netloc, path, query, fragment⟩

/-- CPython's `uses_params` list. -/
def usesParams : List Str :=
  [[], "ftp".toList, "hdl".toList, "prospero".toList, "http".toList,
   "imap".toList, "https".toList, "shttp".toList, "rtsp".toList,
   "rtspu".toList, "sip".toList, "sips".toList, "mms".toList,
   "sftp".toList, "tel".toList]

/-- The last `/`-separated segment of a path (the whole path when it has
no slash); the region CPython's `_splitparams` searches for `;`. -/
def lastSeg (p : Str) : Str := (p.reverse.takeWhile notSlash).reverse

/-- CPython's `_splitparams`, reached only when `';' ∈ url`: with a
slash, split at the first `;` of the last segment (if any); without a
slash, split at the first `;`. -/
def splitparamsM (p : Str) : Str × Str :=
  if '/' ∈ p then
    if ';' ∈ lastSeg p then
      let ini := (p.reverse.dropWhile notSlash).reverse
      (ini ++ (lastSeg p).takeWhile notSemi, ((lastSeg p).dropWhile notSemi).drop 1)
    else (p, [])
  else (p.takeWhile notSemi, (p.dropWhile notSemi).drop 1)

/-- The result of `urlparse` (path parameters split off). -/
structure UrlParse where
  scheme : Str
  netloc : Str
  path : Str
  params : Str
  query : Str
  fragment : Str
deriving DecidableEq, Repr

/-- Model of `urllib.parse.urlparse`. -/
def urlparseM (l : Str) : UrlParse :=
  let s := urlsplitM l
  let pp := if s.scheme ∈ usesParams ∧ ';' ∈ s.path then splitparamsM s.path
            else (s.path, [])
  ⟨s.scheme, s.netloc, pp.1, pp.2, s.query, s.fragment⟩

/-! ## clean_url and is_in_scope -/

/-- `clean_url`: `parsed.scheme + "://" + parsed.netloc + parsed.path`. -/
def clean_url (url : Str) : Str :=
  let parsed := urlparseM url
  parsed.scheme ++ (':' :: '/' :: '/' :: []) ++ parsed.netloc ++ parsed.path

/-- `"http"` as a character list. -/
def httpL : Str := "http".toList

/-- `"https"` as a character list. -/
def httpsL : Str := "https".toList

/-- `is_in_scope`, parameterised by the run's `target_domain` and
`path_scope`: reject on netloc mismatch; reject a nonempty scheme other
than http/https (an empty scheme passes the truthiness guard); reject
when a nonempty `path_scope` is not a prefix of the path. -/
def is_in_scope (target_domain path_scope : Str) (url : Str) : Bool :=
  let parsed := urlparseM url
  if parsed.netloc ≠ target_domain then false
  else if parsed.scheme ≠ [] ∧ parsed.scheme ≠ httpL ∧ parsed.scheme ≠ httpsL then false
  else if path_scope ≠ [] ∧ ¬ (path_scope.isPrefixOf parsed.path = true) then false
  else true

/-! ## The crawl loop `generate_llms_txt`

The loop is modelled as a step function on an explicit state.  The
external collaborators (the content fetch in `fetch_and_convert` and the
link-discovery fetch) are supplied by a `World`:

* `fetchPage u` is the pair `(raw_markdown, page_title)` returned by
  `fetch_and_convert u`, or `none` for a transport error, a non-HTML
  content type, or an unparseable/absent body;
* `pageLinks u` is the list of absolute URLs (`urljoin` already applied
  by the collaborator) produced by the link-discovery fetch of `u`; a
  failed link fetch is a (possibly empty) truncated list, matching the
  silent `except: pass`.

`fetched` and `linkFetched` are event logs: a URL is appended to
`fetched` exactly when it is passed to `fetch_and_convert`, and to
`linkFetched` exactly when the link-discovery fetch for it runs. -/

/-- The run's configuration (`start_url`, derived `target_domain`, and
the optional `path_scope`). -/
structure Config where
  start_url : Str
  target_domain : Str
  path_scope : Str

/-- The external collaborators of one run. -/
structure World where
  fetchPage : Str → Option (Str × Str)
  pageLinks : Str → List Str

/-- One page section of the output document: `# <title>`,
`Original URL: <url>`, and the compressed content. -/
structure PageSection where
  title : Str
  url : Str
  content : Str
deriving DecidableEq, Repr

/-- The crawl state: `visited` and the frontier `to_visit`, the
compressor's dictionary (`tracker`), the document sections written so
far, and the two event logs. -/
structure CrawlState where
  visited : List Str
  to_visit : List Str
  tracker : List (Str × Nat)
  doc : List PageSection
  fetched : List Str
  linkFetched : List Str

/-- The link-discovery loop body: for each discovered absolute URL,
apply `clean_url`; append it to the frontier when it is not visited, not
already queued, and in scope. -/
def addLinks (cfg : Config) (visited : List Str) (frontier : List Str) :
    List Str → List Str
  | [] => frontier
  | fu :: rest =>
    let fin := clean_url fu
    if fin ∉ visited ∧ fin ∉ frontier ∧
        is_in_scope cfg.target_domain cfg.path_scope fin = true
    then addLinks cfg visited (frontier ++ [fin]) rest
    else addLinks cfg visited frontier rest

/-- The successful-extraction part of one loop iteration: compress the
raw markdown with the crawl-wide tracker (threshold 3, as the script
instantiates the compressor with redundancy_threshold 3), append a
section only when the stripped compressed content is longer than 50
characters, then run link discovery and extend the frontier. -/
def crawlContent (cfg : Config) (w : World) (st1 : CrawlState)
    (cc : Str) (rest : List Str) (raw title : Str) : CrawlState :=
  let r := compress ⟨st1.tracker, 3⟩ raw
  let compressed := r.2
  { st1 with
    tracker := r.1.block_hashes
    doc := if 50 < (pyStrip compressed).length
           then st1.doc ++ [⟨title, cc, compressed⟩] else st1.doc
    to_visit := addLinks cfg st1.visited rest (w.pageLinks cc)
    linkFetched := st1.linkFetched ++ [cc] }

/-- The part of one loop iteration after the visited/scope checks: mark
visited, attempt the fetch; on failure or empty markdown fall through to
the next frontier entry (the code's `if raw_markdown:` truthiness test),
otherwise process the content. -/
def crawlVisit (cfg : Config) (w : World) (st : CrawlState)
    (cc : Str) (rest : List Str) : CrawlState :=
  let st1 := { st with
    to_visit := rest
    visited := cc :: st.visited
    fetched := st.fetched ++ [cc] }
  match w.fetchPage cc with
  | none => st1
  | some (raw, title) => if raw = [] then st1 else crawlContent cfg w st1 cc rest raw title

/-- One iteration of the `while to_visit:` loop: pop the head, normalise
it, skip if visited or out of scope, else visit it.  On an empty
frontier the state is unchanged (the loop has terminated). -/
def crawlStep (cfg : Config) (w : World) (st : CrawlState) : CrawlState :=
  match st.to_visit with
  | [] => st
  | current :: rest =>
    let cc := clean_url current
    if cc ∈ st.visited then { st with to_visit := rest }
    else if ¬ is_in_scope cfg.target_domain cfg.path_scope cc = true then
      { st with to_visit := rest }
    else crawlVisit cfg w st cc rest

/-- The initial crawl state: empty visited set, document, tracker and
logs; the frontier holds `start_url`. -/
def initState (cfg : Config) : CrawlState :=
  ⟨[], [cfg.start_url], [], [], [], []⟩

/-- The state after `n` loop iterations. -/
def crawlIter (cfg : Config) (w : World) : Nat → CrawlState
  | 0 => initState cfg
  | n + 1 => crawlStep cfg w (crawlIter cfg w n)

/-! ## Concrete run fixtures used by witnesses and counterexamples -/

/-- Demo configuration: crawl of `https://ex.com/docs/a`, whole domain. -/
def cfgD : Config := ⟨"https://ex.com/docs/a".toList, "ex.com".toList, []⟩

/-- The normalised start URL of the demo configuration. -/
def startClean : Str := clean_url cfgD.start_url

/-- A 60-character single-block page body. -/
def page60 : Str := "This page here contains sixty characters of usable contents!".toList

/-- A 50-character single-block page body. -/
def page50 : Str := "This block of text is exactly fifty characters ok!".toList

/-- A 40-character single-block page body. -/
def page40 : Str := "This page has exactly forty characters!!".toList

/-- A world whose start page has 60 characters of content and one
outgoing link. -/
def wSixty : World :=
  ⟨fun u => if u = startClean then some (page60, "A".toList) else none,
   fun u => if u = startClean then ["https://ex.com/docs/b".toList] else []⟩

/-- A world whose start page compresses to exactly 50 characters. -/
def wFifty : World :=
  ⟨fun u => if u = startClean then some (page50, "A".toList) else none,
   fun _ => []⟩

/-- A world whose start page has 40 characters of content and one
outgoing link. -/
def wForty : World :=
  ⟨fun u => if u = startClean then some (page40, "A".toList) else none,
   fun u => if u = startClean then ["https://ex.com/docs/b".toList] else []⟩

/-- A world in which every fetch fails. -/
def wFail : World := ⟨fun _ => none, fun _ => []⟩

/-! ## List helper lemmas -/

theorem takeWhile_append_all {P : Char → Bool} :
    ∀ {a : Str}, (∀ x ∈ a, P x = true) → ∀ b : Str,
      (a ++ b).takeWhile P = a ++ b.takeWhile P := by
  intro a
  induction a with
  | nil => intro _ b; simp
  | cons x xs ih =>
    intro h b
    have hx : P x = true := h x (by simp)
    simp only [List.cons_append, List.takeWhile_cons, hx]
    simp [ih (fun y hy => h y (by simp [hy]))]

theorem dropWhile_append_all {P : Char → Bool} :
    ∀ {a : Str}, (∀ x ∈ a, P x = true) → ∀ b : Str,
      (a ++ b).dropWhile P = b.dropWhile P := by
  intro a
  induction a with
  | nil => intro _ b; simp
  | cons x xs ih =>
    intro h b
    have hx : P x = true := h x (by simp)
    simp only [List.cons_append, List.dropWhile_cons, hx]
    simp [ih (fun y hy => h y (by simp [hy]))]

theorem mem_of_mem_takeWhile {P : Char → Bool} :
    ∀ {l : Str} {x : Char}, x ∈ l.takeWhile P → P x = true ∧ x ∈ l := by
  intro l
  induction l with
  | nil => intro x h; simp [List.takeWhile] at h
  | cons y ys ih =>
    intro x h
    by_cases hy : P y = true
    · rw [List.takeWhile_cons, if_pos hy] at h
      rcases List.mem_cons.1 h with h | h
      · exact ⟨h ▸ hy, by simp [h]⟩
      · rcases ih h with ⟨h1, h2⟩
        exact ⟨h1, by simp [h2]⟩
    · rw [List.takeWhile_cons, if_neg hy] at h
      simp at h

theorem takeWhile_append_stop {P : Char → Bool} :
    ∀ {a : Str}, (∃ x ∈ a, P x = false) → ∀ b : Str,
      (a ++ b).takeWhile P = a.takeWhile P := by
  intro a
  induction a with
  | nil => rintro ⟨x, hx, _⟩ b; simp at hx
  | cons y ys ih =>
    rintro ⟨x, hx, hPx⟩ b
    by_cases hy : P y = true
    · have hxy : x ∈ ys := by
        rcases List.mem_cons.1 hx with h | h
        · exact absurd (h ▸ hPx) (by simp [hy])
        · exact h
      simp only [List.cons_append, List.takeWhile_cons, hy]
      simp [ih ⟨x, hxy, hPx⟩]
    · have hy' : P y = false := by
        cases h : P y with
        | false => rfl
        | true => exact absurd h hy
      simp [List.takeWhile_cons, hy']

/-! ## C10: compression is an order-preserving block subsequence -/

theorem processBlock_drop_or_keep (comp : ContextCompressor) (b : Str) :
    (processBlock comp b).2 = none ∨ (processBlock comp b).2 = some (pyStrip b) := by
  unfold processBlock
  dsimp only
  by_cases h1 : pyStrip b = []
  · rw [if_pos h1]
    exact Or.inl rfl
  · rw [if_neg h1]
    by_cases h2 : is_noise (pyStrip b) = true
    · rw [if_pos h2]
      exact Or.inl rfl
    · rw [if_neg h2]
      by_cases h3 : (!startsWithChar '#' (pyStrip b) &&
          !startsWithChar backquote (pyStrip b)) = true
      · rw [if_pos h3]
        by_cases h4 : comp.redundancy_threshold ≤ getCount comp.block_hashes (pyStrip b)
        · rw [if_pos h4]
          exact Or.inl rfl
        · rw [if_neg h4]
          exact Or.inr rfl
      · rw [if_neg h3]
        exact Or.inr rfl

theorem compressRun_sublist :
    ∀ (bs : List Str) (comp : ContextCompressor),
      ((compressRun comp bs).2).Sublist (bs.map pyStrip) := by
  intro bs
  induction bs with
  | nil => intro comp; simp [compressRun]
  | cons b rest ih =>
    intro comp
    rcases processBlock_drop_or_keep comp b with h | h
    · simp only [compressRun, h, List.map_cons]
      exact List.Sublist.cons _ (ih _)
    · simp only [compressRun, h, List.map_cons]
      exact List.Sublist.cons₂ _ (ih _)

/-- Claim C10: for every input text and every tracker state, the output
of `compress` is the join, with exactly one double line break, of an
order-preserving subsequence of the trimmed blocks of the
layout-normalised input: compression only drops whole blocks and never
reorders, merges, splits or rewrites a surviving block. -/
theorem compress_subsequence (comp : ContextCompressor) (text : Str) :
    ∃ kept : List Str,
      kept.Sublist ((splitOnNN (normalize_layout text)).map pyStrip) ∧
      (compress comp text).2 = List.intercalate ['\n', '\n'] kept := by
  by_cases h : text = []
  · exact ⟨[], List.nil_sublist _, by simp [compress, h, List.intercalate]⟩
  · exact ⟨(compressRun comp (splitOnNN (normalize_layout text))).2,
      compressRun_sublist _ comp, by simp [compress, h]⟩

/-! ## C1: the global redundancy threshold law -/

theorem is_noise_nil : is_noise [] = true := by decide

theorem getCount_cons_self (m : List (Str × Nat)) (k : Str) (v : Nat) :
    getCount ((k, v) :: m) k = v := by
  simp [getCount, List.lookup]

/-- Claim C1: with `redundancy_threshold = 3`, a block that is not a
heading, not a code fence and not noise is kept exactly when the
tracker's current count for its trimmed text is below 3 (so the k-th
occurrence across the whole crawl is kept for k ≤ 3 and dropped for
k ≥ 4), and the stored count afterwards is the old count plus one — the
count is incremented on every occurrence, kept or dropped, so it always
equals the number of occurrences seen so far; a heading block is never
dropped by the redundancy check (it bypasses it and leaves the tracker
unchanged), however often it repeats. -/
theorem redundancy_threshold_law :
    (∀ (m : List (Str × Nat)) (b : Str),
      is_noise (pyStrip b) = false →
      startsWithChar '#' (pyStrip b) = false →
      startsWithChar backquote (pyStrip b) = false →
      ((processBlock ⟨m, 3⟩ b).2 =
        if getCount m (pyStrip b) < 3 then some (pyStrip b) else none) ∧
      getCount (processBlock ⟨m, 3⟩ b).1.block_hashes (pyStrip b) =
        getCount m (pyStrip b) + 1) ∧
    (∀ (m : List (Str × Nat)) (b : Str),
      is_noise (pyStrip b) = false →
      startsWithChar '#' (pyStrip b) = true →
      processBlock ⟨m, 3⟩ b = (⟨m, 3⟩, some (pyStrip b))) := by
  constructor
  · intro m b hnoise hhead hcode
    have hne : pyStrip b ≠ [] := by
      intro h
      rw [h, is_noise_nil] at hnoise
      exact absurd hnoise (by simp)
    unfold processBlock
    simp only [hne, hnoise, hhead, hcode, Bool.not_false, Bool.and_self,
      if_false, if_true, Bool.false_eq_true, ite_false, ite_true]
    by_cases hc : 3 ≤ getCount m (pyStrip b)
    · simp only [if_pos hc]
      exact ⟨by simp [Nat.not_lt.2 hc], by simp [getCount_cons_self]⟩
    · simp only [if_neg hc]
      exact ⟨by simp [Nat.lt_of_not_le hc], by simp [getCount_cons_self]⟩
  · intro m b hnoise hhead
    have hne : pyStrip b ≠ [] := by
      intro h
      rw [h, is_noise_nil] at hnoise
      exact absurd hnoise (by simp)
    unfold processBlock
    simp [hne, hnoise, hhead]

/-- A non-heading, non-code, non-noise sample block. -/
def blkW : Str := "hello world block".toList

/-- A heading sample block. -/
def hdW : Str := "# Title".toList

theorem redundancy_threshold_law_witness :
    (is_noise (pyStrip blkW) = false ∧ startsWithChar '#' (pyStrip blkW) = false ∧
     startsWithChar backquote (pyStrip blkW) = false ∧
     is_noise (pyStrip hdW) = false ∧ startsWithChar '#' (pyStrip hdW) = true) ∧
    ((processBlock ⟨[], 3⟩ blkW).2 =
      if getCount [] (pyStrip blkW) < 3 then some (pyStrip blkW) else none) ∧
    getCount (processBlock ⟨[], 3⟩ blkW).1.block_hashes (pyStrip blkW) =
      getCount [] (pyStrip blkW) + 1 ∧
    processBlock ⟨[], 3⟩ hdW = (⟨[], 3⟩, some (pyStrip hdW)) :=
  ⟨⟨by decide, by decide, by decide, by decide, by decide⟩,
   (redundancy_threshold_law.1 [] blkW (by decide) (by decide) (by decide)).1,
   (redundancy_threshold_law.1 [] blkW (by decide) (by decide) (by decide)).2,
   redundancy_threshold_law.2 [] hdW (by decide) (by decide)⟩

/-! ## C9: the noise classifier -/

/-- Claim C9: the noise classifier returns true on every block whose
trimmed text is shorter than 3 characters, on the whole-block
navigational phrase "Back To Top" (case-insensitively), on the copyright
line "© 2023 Example Corp", and on the all-symbol separator "----"; it
returns false on a 40-character ordinary sentence; and a block
classified as noise is dropped by the block loop without touching the
redundancy tracker. -/
theorem noise_classifier_spec :
    (∀ b : Str, (pyStrip b).length < 3 → is_noise b = true) ∧
    is_noise "Back To Top".toList = true ∧
    is_noise "© 2023 Example Corp".toList = true ∧
    is_noise "----".toList = true ∧
    ("This ordinary sentence has forty letters".toList.length = 40 ∧
     is_noise "This ordinary sentence has forty letters".toList = false) ∧
    (∀ (comp : ContextCompressor) (b : Str),
      is_noise (pyStrip b) = true → processBlock comp b = (comp, none)) := by
  refine ⟨?_, by decide, by decide, by decide, ⟨by decide, by decide⟩, ?_⟩
  · intro b h
    unfold is_noise
    simp [h]
  · intro comp b h
    unfold processBlock
    by_cases hne : pyStrip b = [] <;> simp [hne, h]

theorem noise_classifier_spec_witness :
    ((pyStrip "ab".toList).length < 3 ∧ is_noise "ab".toList = true) ∧
    (is_noise (pyStrip "----".toList) = true ∧
     processBlock ⟨[], 3⟩ "----".toList = (⟨[], 3⟩, none)) :=
  ⟨⟨by decide, noise_classifier_spec.1 "ab".toList (by decide)⟩,
   ⟨by decide, noise_classifier_spec.2.2.2.2.2 ⟨[], 3⟩ "----".toList (by decide)⟩⟩

/-! ## Crawl-step shape lemmas -/

theorem crawlStep_nil (cfg : Config) (w : World) (st : CrawlState)
    (h : st.to_visit = []) : crawlStep cfg w st = st := by
  unfold crawlStep
  rw [h]

theorem crawlStep_cons (cfg : Config) (w : World) (st : CrawlState)
    (current : Str) (rest : List Str) (h : st.to_visit = current :: rest) :
    crawlStep cfg w st =
      if clean_url current ∈ st.visited then { st with to_visit := rest }
      else if ¬ is_in_scope cfg.target_domain cfg.path_scope (clean_url current) = true then
        { st with to_visit := rest }
      else crawlVisit cfg w st (clean_url current) rest := by
  unfold crawlStep
  rw [h]

theorem crawlVisit_none (cfg : Config) (w : World) (st : CrawlState)
    (cc : Str) (rest : List Str) (h : w.fetchPage cc = none) :
    crawlVisit cfg w st cc rest =
      { st with
        to_visit := rest
        visited := cc :: st.visited
        fetched := st.fetched ++ [cc] } := by
  unfold crawlVisit
  rw [h]

theorem crawlVisit_some (cfg : Config) (w : World) (st : CrawlState)
    (cc : Str) (rest : List Str) (raw title : Str)
    (h : w.fetchPage cc = some (raw, title)) :
    crawlVisit cfg w st cc rest =
      (if raw = [] then
        { st with
          to_visit := rest
          visited := cc :: st.visited
          fetched := st.fetched ++ [cc] }
      else crawlContent cfg w
        { st with
          to_visit := rest
          visited := cc :: st.visited
          fetched := st.fetched ++ [cc] } cc rest raw title) := by
  unfold crawlVisit
  rw [h]

theorem addLinks_mem (cfg : Config) (V : List Str) :
    ∀ (ls fr : List Str) (u : Str), u ∈ addLinks cfg V fr ls → u ∈ fr ∨ u ∉ V := by
  intro ls
  induction ls with
  | nil =>
    intro fr u h
    exact Or.inl (by simpa [addLinks] using h)
  | cons fu rest ih =>
    intro fr u h
    rw [addLinks] at h
    split at h
    · rename_i hcond
      rcases ih _ u h with hmem | hnv
      · rcases List.mem_append.1 hmem with hf | hfin
        · exact Or.inl hf
        · have : u = clean_url fu := by simpa using hfin
          exact Or.inr (this ▸ hcond.1)
      · exact Or.inr hnv
    · exact ih _ u h

theorem crawlVisit_visited (cfg : Config) (w : World) (st : CrawlState)
    (cc : Str) (rest : List Str) :
    (crawlVisit cfg w st cc rest).visited = cc :: st.visited := by
  cases h : w.fetchPage cc with
  | none => rw [crawlVisit_none cfg w st cc rest h]
  | some p =>
    cases p with
    | mk raw title =>
      rw [crawlVisit_some cfg w st cc rest raw title h]
      by_cases hr : raw = []
      · rw [if_pos hr]
      · rw [if_neg hr]
        simp [crawlContent]

theorem crawlVisit_fetched (cfg : Config) (w : World) (st : CrawlState)
    (cc : Str) (rest : List Str) :
    (crawlVisit cfg w st cc rest).fetched = st.fetched ++ [cc] := by
  cases h : w.fetchPage cc with
  | none => rw [crawlVisit_none cfg w st cc rest h]
  | some p =>
    cases p with
    | mk raw title =>
      rw [crawlVisit_some cfg w st cc rest raw title h]
      by_cases hr : raw = []
      · rw [if_pos hr]
      · rw [if_neg hr]
        simp [crawlContent]

theorem crawlVisit_doc_shape (cfg : Config) (w : World) (st : CrawlState)
    (cc : Str) (rest : List Str) :
    (crawlVisit cfg w st cc rest).doc = st.doc ∨
    ∃ sec : PageSection, sec.url = cc ∧
      (crawlVisit cfg w st cc rest).doc = st.doc ++ [sec] := by
  cases h : w.fetchPage cc with
  | none =>
    rw [crawlVisit_none cfg w st cc rest h]
    exact Or.inl rfl
  | some p =>
    cases p with
    | mk raw title =>
      rw [crawlVisit_some cfg w st cc rest raw title h]
      by_cases hr : raw = []
      · rw [if_pos hr]
        exact Or.inl rfl
      · rw [if_neg hr]
        simp only [crawlContent]
        by_cases hg : 50 < (pyStrip (compress ⟨st.tracker, 3⟩ raw).2).length
        · exact Or.inr ⟨⟨title, cc, (compress ⟨st.tracker, 3⟩ raw).2⟩, rfl, by simp [hg]⟩
        · simp [hg]

theorem crawlVisit_toVisit_mem (cfg : Config) (w : World) (st : CrawlState)
    (cc : Str) (rest : List Str) :
    ∀ u ∈ (crawlVisit cfg w st cc rest).to_visit, u ∈ rest ∨ u ∉ cc :: st.visited := by
  intro u hu
  cases h : w.fetchPage cc with
  | none =>
    rw [crawlVisit_none cfg w st cc rest h] at hu
    exact Or.inl hu
  | some p =>
    cases p with
    | mk raw title =>
      rw [crawlVisit_some cfg w st cc rest raw title h] at hu
      by_cases hr : raw = []
      · rw [if_pos hr] at hu
        exact Or.inl hu
      · rw [if_neg hr] at hu
        simp only [crawlContent] at hu
        exact addLinks_mem cfg _ _ _ u hu

theorem crawlStep_no_refetch (cfg : Config) (w : World) (st : CrawlState) :
    ∀ u ∈ st.visited, u ∈ (crawlStep cfg w st).fetched → u ∈ st.fetched := by
  intro u hu hf
  cases h : st.to_visit with
  | nil =>
    rw [crawlStep_nil cfg w st h] at hf
    exact hf
  | cons current rest =>
    rw [crawlStep_cons cfg w st current rest h] at hf
    by_cases h1 : clean_url current ∈ st.visited
    · rw [if_pos h1] at hf
      exact hf
    · rw [if_neg h1] at hf
      by_cases h2 : ¬ is_in_scope cfg.target_domain cfg.path_scope (clean_url current) = true
      · rw [if_pos h2] at hf
        exact hf
      · rw [if_neg h2] at hf
        rw [crawlVisit_fetched] at hf
        rcases List.mem_append.1 hf with hf | hf
        · exact hf
        · have : u = clean_url current := by simpa using hf
          exact absurd (this ▸ hu) h1

theorem crawlStep_visited_monotone (cfg : Config) (w : World) (st : CrawlState) :
    ∀ u ∈ st.visited, u ∈ (crawlStep cfg w st).visited := by
  intro u hu
  cases h : st.to_visit with
  | nil =>
    rw [crawlStep_nil cfg w st h]
    exact hu
  | cons current rest =>
    rw [crawlStep_cons cfg w st current rest h]
    by_cases h1 : clean_url current ∈ st.visited
    · rw [if_pos h1]
      exact hu
    · rw [if_neg h1]
      by_cases h2 : ¬ is_in_scope cfg.target_domain cfg.path_scope (clean_url current) = true
      · rw [if_pos h2]
        exact hu
      · rw [if_neg h2]
        rw [crawlVisit_visited]
        exact List.mem_cons_of_mem _ hu

theorem crawlStep_no_reenqueue (cfg : Config) (w : World) (st : CrawlState) :
    ∀ u ∈ st.visited, u ∈ (crawlStep cfg w st).to_visit → u ∈ st.to_visit := by
  intro u hu ht
  cases h : st.to_visit with
  | nil =>
    rw [crawlStep_nil cfg w st h] at ht
    rw [h] at ht
    exact ht
  | cons current rest =>
    rw [crawlStep_cons cfg w st current rest h] at ht
    by_cases h1 : clean_url current ∈ st.visited
    · rw [if_pos h1] at ht
      exact List.mem_cons_of_mem _ ht
    · rw [if_neg h1] at ht
      by_cases h2 : ¬ is_in_scope cfg.target_domain cfg.path_scope (clean_url current) = true
      · rw [if_pos h2] at ht
        exact List.mem_cons_of_mem _ ht
      · rw [if_neg h2] at ht
        rcases crawlVisit_toVisit_mem cfg w st (clean_url current) rest u ht with hr | hnv
        · exact List.mem_cons_of_mem _ hr
        · exact absurd (List.mem_cons_of_mem _ hu) hnv

/-! ## The crawl invariant (C3) -/

/-- The inductive invariant of the crawl loop: document URLs are
distinct and visited, fetch events are distinct and visited. -/
def CrawlInv (st : CrawlState) : Prop :=
  (st.doc.map PageSection.url).Nodup ∧
  (∀ s ∈ st.doc, s.url ∈ st.visited) ∧
  st.fetched.Nodup ∧
  (∀ u ∈ st.fetched, u ∈ st.visited)

theorem crawlInv_step (cfg : Config) (w : World) (st : CrawlState)
    (h : CrawlInv st) : CrawlInv (crawlStep cfg w st) := by
  obtain ⟨hnd, hdv, hfn, hfv⟩ := h
  cases hv : st.to_visit with
  | nil =>
    rw [crawlStep_nil cfg w st hv]
    exact ⟨hnd, hdv, hfn, hfv⟩
  | cons current rest =>
    rw [crawlStep_cons cfg w st current rest hv]
    by_cases h1 : clean_url current ∈ st.visited
    · rw [if_pos h1]
      exact ⟨hnd, hdv, hfn, hfv⟩
    · rw [if_neg h1]
      by_cases h2 : ¬ is_in_scope cfg.target_domain cfg.path_scope (clean_url current) = true
      · rw [if_pos h2]
        exact ⟨hnd, hdv, hfn, hfv⟩
      · rw [if_neg h2]
        refine ⟨?_, ?_, ?_, ?_⟩
        · rcases crawlVisit_doc_shape cfg w st (clean_url current) rest with hd | ⟨sec, hsec, hd⟩
          · rw [hd]
            exact hnd
          · rw [hd, List.map_append, List.map_singleton, hsec]
            rw [List.nodup_append]
            refine ⟨hnd, List.nodup_singleton _, ?_⟩
            intro a ha hb
            have : a = clean_url current := by simpa using hb
            rcases List.mem_map.1 ha with ⟨s, hs, hurl⟩
            exact h1 (this ▸ hurl ▸ hdv s hs)
        · intro s hs
          rw [crawlVisit_visited]
          rcases crawlVisit_doc_shape cfg w st (clean_url current) rest with hd | ⟨sec, hsec, hd⟩
          · rw [hd] at hs
            exact List.mem_cons_of_mem _ (hdv s hs)
          · rw [hd] at hs
            rcases List.mem_append.1 hs with hs | hs
            · exact List.mem_cons_of_mem _ (hdv s hs)
            · have : s = sec := by simpa using hs
              rw [this, hsec]
              exact List.mem_cons_self _ _
        · rw [crawlVisit_fetched, List.nodup_append]
          refine ⟨hfn, List.nodup_singleton _, ?_⟩
          intro a ha hb
          have : a = clean_url current := by simpa using hb
          exact h1 (this ▸ hfv a ha)
        · intro u hu
          rw [crawlVisit_fetched] at hu
          rw [crawlVisit_visited]
          rcases List.mem_append.1 hu with hu | hu
          · exact List.mem_cons_of_mem _ (hfv u hu)
          · have : u = clean_url current := by simpa using hu
            rw [this]
            exact List.mem_cons_self _ _

theorem crawlInv_iter (cfg : Config) (w : World) :
    ∀ n : Nat, CrawlInv (crawlIter cfg w n) := by
  intro n
  induction n with
  | zero =>
    refine ⟨by simp [crawlIter, initState], ?_, by simp [crawlIter, initState], ?_⟩
    · intro s hs
      simp [crawlIter, initState] at hs
    · intro u hu
      simp [crawlIter, initState] at hu
  | succ n ih => exact crawlInv_step cfg w _ ih

/-- Claim C3: after any number of crawl steps, each normalised URL heads
at most one page section of the document (the section URLs are
distinct); one further step never removes a member of the visited set;
and a URL that is already visited is neither passed to the content fetch
again nor appended to the frontier by that step. -/
theorem crawl_no_double_processing (cfg : Config) (w : World) (n : Nat) :
    (((crawlIter cfg w n).doc.map PageSection.url).Nodup) ∧
    (∀ u ∈ (crawlIter cfg w n).visited, u ∈ (crawlIter cfg w (n + 1)).visited) ∧
    (∀ u ∈ (crawlIter cfg w n).visited,
      u ∈ (crawlIter cfg w (n + 1)).fetched → u ∈ (crawlIter cfg w n).fetched) ∧
    (∀ u ∈ (crawlIter cfg w n).visited,
      u ∈ (crawlIter cfg w (n + 1)).to_visit → u ∈ (crawlIter cfg w n).to_visit) :=
  ⟨(crawlInv_iter cfg w n).1,
   fun u hu => crawlStep_visited_monotone cfg w _ u hu,
   fun u hu hf => crawlStep_no_refetch cfg w _ u hu hf,
   fun u hu ht => crawlStep_no_reenqueue cfg w _ u hu ht⟩

theorem crawl_no_double_processing_witness :
    startClean ∈ (crawlIter cfgD wSixty 1).visited ∧
    startClean ∈ (crawlIter cfgD wSixty 2).visited :=
  ⟨by decide, (crawl_no_double_processing cfgD wSixty 1).2.1 startClean (by decide)⟩

/-! ## C7: visited before the fetch attempt -/

/-- Claim C7: a URL is added to the visited set before the fetch is
attempted: when the fetch of an in-scope, unvisited URL fails, the URL
is nevertheless in the visited set afterwards, no document section is
written, the loop continues with the next frontier entry, the fetch
attempt itself was logged, and a URL in the visited set is never passed
to the content fetch by any later step. -/
theorem visited_before_fetch (cfg : Config) (w : World) (st : CrawlState)
    (current : Str) (rest : List Str)
    (h1 : st.to_visit = current :: rest)
    (h2 : clean_url current ∉ st.visited)
    (h3 : is_in_scope cfg.target_domain cfg.path_scope (clean_url current) = true)
    (h4 : w.fetchPage (clean_url current) = none) :
    (crawlStep cfg w st).visited = clean_url current :: st.visited ∧
    (crawlStep cfg w st).doc = st.doc ∧
    (crawlStep cfg w st).to_visit = rest ∧
    (crawlStep cfg w st).fetched = st.fetched ++ [clean_url current] ∧
    (∀ st' : CrawlState, clean_url current ∈ st'.visited →
      clean_url current ∈ (crawlStep cfg w st').fetched →
      clean_url current ∈ st'.fetched) := by
  rw [crawlStep_cons cfg w st current rest h1, if_neg h2,
    if_neg (show ¬ ¬ is_in_scope cfg.target_domain cfg.path_scope (clean_url current) = true by
      simp [h3]),
    crawlVisit_none cfg w st (clean_url current) rest h4]
  exact ⟨rfl, rfl, rfl, rfl, fun st' hv hf => crawlStep_no_refetch cfg w st' _ hv hf⟩

theorem visited_before_fetch_witness :
    ((initState cfgD).to_visit = cfgD.start_url :: [] ∧
     clean_url cfgD.start_url ∉ (initState cfgD).visited ∧
     is_in_scope cfgD.target_domain cfgD.path_scope (clean_url cfgD.start_url) = true ∧
     wFail.fetchPage (clean_url cfgD.start_url) = none) ∧
    (crawlStep cfgD wFail (initState cfgD)).visited =
      clean_url cfgD.start_url :: (initState cfgD).visited ∧
    (crawlStep cfgD wFail (initState cfgD)).doc = (initState cfgD).doc ∧
    (crawlStep cfgD wFail (initState cfgD)).to_visit = [] ∧
    (crawlStep cfgD wFail (initState cfgD)).fetched =
      (initState cfgD).fetched ++ [clean_url cfgD.start_url] :=
  ⟨⟨by decide, by decide, by decide, rfl⟩,
   (visited_before_fetch cfgD wFail (initState cfgD) cfgD.start_url []
     (by decide) (by decide) (by decide) rfl).1,
   (visited_before_fetch cfgD wFail (initState cfgD) cfgD.start_url []
     (by decide) (by decide) (by decide) rfl).2.1,
   (visited_before_fetch cfgD wFail (initState cfgD) cfgD.start_url []
     (by decide) (by decide) (by decide) rfl).2.2.1,
   (visited_before_fetch cfgD wFail (initState cfgD) cfgD.start_url []
     (by decide) (by decide) (by decide) rfl).2.2.2.1⟩

/-! ## C6: link discovery runs iff extraction returned nonempty text -/

/-- Claim C6: for an in-scope, unvisited frontier head, the
link-discovery fetch runs exactly when the content extraction returned
nonempty text — in particular it runs even when the compressed content
fails the minimum-length gate, since the conclusion does not mention the
gate — and when extraction returned nothing (failure or empty text) link
discovery is not attempted and the frontier gains no entries. -/
theorem link_discovery_iff_extraction (cfg : Config) (w : World) (st : CrawlState)
    (current : Str) (rest : List Str)
    (h1 : st.to_visit = current :: rest)
    (h2 : clean_url current ∉ st.visited)
    (h3 : is_in_scope cfg.target_domain cfg.path_scope (clean_url current) = true) :
    ((crawlStep cfg w st).linkFetched = st.linkFetched ++ [clean_url current] ↔
      (∃ raw title, w.fetchPage (clean_url current) = some (raw, title) ∧ raw ≠ [])) ∧
    (w.fetchPage (clean_url current) = none →
      (crawlStep cfg w st).linkFetched = st.linkFetched ∧
      (crawlStep cfg w st).to_visit = rest) ∧
    (∀ title : Str, w.fetchPage (clean_url current) = some ([], title) →
      (crawlStep cfg w st).linkFetched = st.linkFetched ∧
      (crawlStep cfg w st).to_visit = rest) := by
  rw [crawlStep_cons cfg w st current rest h1, if_neg h2,
    if_neg (show ¬ ¬ is_in_scope cfg.target_domain cfg.path_scope (clean_url current) = true by
      simp [h3])]
  cases hf : w.fetchPage (clean_url current) with
  | none =>
    rw [crawlVisit_none cfg w st (clean_url current) rest hf]
    refine ⟨?_, fun _ => ⟨rfl, rfl⟩, ?_⟩
    · constructor
      · intro h
        exact absurd h (by simp)
      · rintro ⟨raw, title, hft, _⟩
        exact absurd hft (by simp)
    · intro title hft
      exact absurd hft (by simp)
  | some p =>
    cases p with
    | mk raw title =>
      rw [crawlVisit_some cfg w st (clean_url current) rest raw title hf]
      by_cases hr : raw = []
      · rw [if_pos hr]
        refine ⟨?_, fun hn => absurd hn (by simp), ?_⟩
        · constructor
          · intro h
            exact absurd h (by simp)
          · rintro ⟨raw', title', hft, hne⟩
            have hrr : raw = raw' := by
              have := hft
              simp only [Option.some.injEq, Prod.mk.injEq] at this
              exact this.1
            exact absurd (hrr ▸ hr) hne
        · intro t _
          exact ⟨rfl, rfl⟩
      · rw [if_neg hr]
        refine ⟨?_, fun hn => absurd hn (by simp), ?_⟩
        · constructor
          · intro _
            exact ⟨raw, title, rfl, hr⟩
          · intro _
            simp [crawlContent]
        · intro t ht
          have : raw = [] := by
            have := ht
            simp only [Option.some.injEq, Prod.mk.injEq] at this
            exact this.1
          exact absurd this hr

theorem link_discovery_iff_extraction_witness :
    ((initState cfgD).to_visit = cfgD.start_url :: [] ∧
     clean_url cfgD.start_url ∉ (initState cfgD).visited ∧
     is_in_scope cfgD.target_domain cfgD.path_scope (clean_url cfgD.start_url) = true) ∧
    ((crawlStep cfgD wForty (initState cfgD)).linkFetched =
        (initState cfgD).linkFetched ++ [clean_url cfgD.start_url] ↔
      (∃ raw title, wForty.fetchPage (clean_url cfgD.start_url) = some (raw, title) ∧
        raw ≠ [])) :=
  ⟨⟨by decide, by decide, by decide⟩,
   (link_discovery_iff_extraction cfgD wForty (initState cfgD) cfgD.start_url []
     (by decide) (by decide) (by decide)).1⟩

/-! ## C8: normalisation drops query strings and fragments -/

/-- Claim C8: a normalised URL always has the shape
`scheme + "://" + netloc + path` of its parse, so any two URLs whose
parses agree on scheme, netloc and path — in particular two URLs that
differ only in their query string and/or fragment — normalise to the
identical string; concretely `https://a.com/p?x=1#frag` and
`https://a.com/p` normalise identically. -/
theorem normalization_drops_query_fragment :
    (∀ u : Str, clean_url u =
      (urlparseM u).scheme ++ (':' :: '/' :: '/' :: []) ++
        (urlparseM u).netloc ++ (urlparseM u).path) ∧
    (∀ u₁ u₂ : Str,
      (urlparseM u₁).scheme = (urlparseM u₂).scheme →
      (urlparseM u₁).netloc = (urlparseM u₂).netloc →
      (urlparseM u₁).path = (urlparseM u₂).path →
      clean_url u₁ = clean_url u₂) ∧
    clean_url "https://a.com/p?x=1#frag".toList = clean_url "https://a.com/p".toList := by
  refine ⟨fun u => rfl, ?_, by decide⟩
  intro u₁ u₂ hs hn hp
  simp only [clean_url, hs, hn, hp]

theorem normalization_drops_query_fragment_witness :
    ((urlparseM "https://a.com/p?x=1#frag".toList).scheme =
       (urlparseM "https://a.com/p".toList).scheme ∧
     (urlparseM "https://a.com/p?x=1#frag".toList).netloc =
       (urlparseM "https://a.com/p".toList).netloc ∧
     (urlparseM "https://a.com/p?x=1#frag".toList).path =
       (urlparseM "https://a.com/p".toList).path) ∧
    clean_url "https://a.com/p?x=1#frag".toList = clean_url "https://a.com/p".toList :=
  ⟨⟨by decide, by decide, by decide⟩,
   normalization_drops_query_fragment.2.1 "https://a.com/p?x=1#frag".toList
     "https://a.com/p".toList (by decide) (by decide) (by decide)⟩

/-! ## C2: the minimum-length acceptance gate (the code's gate is strict) -/

/-- Counterexample to claim C2 as stated: the claim says a page whose
compressed text trims to exactly 50 characters is written to the
document, but the code's gate is `len(... .strip()) > 50`, so a page
compressing to a stripped length of exactly 50 is discarded: in the
fixture run the page body is fetched, its compressed text strips to
exactly 50 characters, and no section is written. -/
theorem min_length_gate_counterexample :
    wFifty.fetchPage startClean = some (page50, "A".toList) ∧
    (crawlIter cfgD wFifty 1).fetched = [startClean] ∧
    (pyStrip (compress ⟨(initState cfgD).tracker, 3⟩ page50).2).length = 50 ∧
    (crawlIter cfgD wFifty 1).doc = [] := by
  refine ⟨rfl, by decide, by decide, by decide⟩

/-- Claim C2, amended: a successfully extracted page is written to the
document exactly when its compressed text's trimmed length is strictly
greater than 50 characters; a trimmed length of at most 50 (including
exactly 50, and the 40-character example) is discarded silently, and the
60-character example is written. -/
theorem min_length_gate_strict (cfg : Config) (w : World) (st : CrawlState)
    (current : Str) (rest : List Str) (raw title : Str)
    (h1 : st.to_visit = current :: rest)
    (h2 : clean_url current ∉ st.visited)
    (h3 : is_in_scope cfg.target_domain cfg.path_scope (clean_url current) = true)
    (h4 : w.fetchPage (clean_url current) = some (raw, title))
    (h5 : raw ≠ []) :
    ((crawlStep cfg w st).doc =
        st.doc ++ [⟨title, clean_url current, (compress ⟨st.tracker, 3⟩ raw).2⟩] ↔
      50 < (pyStrip (compress ⟨st.tracker, 3⟩ raw).2).length) ∧
    ((pyStrip (compress ⟨st.tracker, 3⟩ raw).2).length ≤ 50 →
      (crawlStep cfg w st).doc = st.doc) := by
  rw [crawlStep_cons cfg w st current rest h1, if_neg h2,
    if_neg (show ¬ ¬ is_in_scope cfg.target_domain cfg.path_scope (clean_url current) = true by
      simp [h3]),
    crawlVisit_some cfg w st (clean_url current) rest raw title h4, if_neg h5]
  simp only [crawlContent]
  by_cases hg : 50 < (pyStrip (compress ⟨st.tracker, 3⟩ raw).2).length
  · refine ⟨?_, fun hle => absurd hg (Nat.not_lt.2 hle)⟩
    simp [hg]
  · refine ⟨?_, fun _ => by simp [hg]⟩
    constructor
    · intro h
      simp only [hg, if_false, ite_false] at h
      exact absurd h (by simp)
    · intro h
      exact absurd h hg

theorem min_length_gate_strict_witness :
    ((initState cfgD).to_visit = cfgD.start_url :: [] ∧
     clean_url cfgD.start_url ∉ (initState cfgD).visited ∧
     is_in_scope cfgD.target_domain cfgD.path_scope (clean_url cfgD.start_url) = true ∧
     wSixty.fetchPage (clean_url cfgD.start_url) = some (page60, "A".toList) ∧
     page60 ≠ []) ∧
    ((crawlStep cfgD wSixty (initState cfgD)).doc =
        (initState cfgD).doc ++
          [⟨"A".toList, clean_url cfgD.start_url,
            (compress ⟨(initState cfgD).tracker, 3⟩ page60).2⟩] ↔
      50 < (pyStrip (compress ⟨(initState cfgD).tracker, 3⟩ page60).2).length) :=
  ⟨⟨by decide, by decide, by decide, by decide, by decide⟩,
   (min_length_gate_strict cfgD wSixty (initState cfgD) cfgD.start_url [] page60 "A".toList
     (by decide) (by decide) (by decide) (by decide) (by decide)).1⟩


/-! ## Facts about the URL parser -/

theorem dropWhile_congr_mem {P Q : Char → Bool} :
    ∀ {l : Str}, (∀ x ∈ l, P x = Q x) → l.dropWhile P = l.dropWhile Q := by
  intro l
  induction l with
  | nil => intro _; rfl
  | cons x xs ih =>
    intro h
    have hx : P x = Q x := h x (by simp)
    rw [List.dropWhile_cons, List.dropWhile_cons, hx]
    by_cases hq : Q x = true
    · rw [if_pos hq, if_pos hq]
      exact ih (fun y hy => h y (by simp [hy]))
    · rw [if_neg hq, if_neg hq]

theorem mem_of_mem_dropWhile {P : Char → Bool} :
    ∀ {l : Str} {x : Char}, x ∈ l.dropWhile P → x ∈ l := by
  intro l
  induction l with
  | nil => intro x h; simp [List.dropWhile] at h
  | cons y ys ih =>
    intro x h
    rw [List.dropWhile_cons] at h
    by_cases hy : P y = true
    · rw [if_pos hy] at h
      exact List.mem_cons_of_mem _ (ih h)
    · rw [if_neg hy] at h
      exact h

theorem takeWhile_all {P : Char → Bool} :
    ∀ {l : Str}, (∀ x ∈ l, P x = true) → l.takeWhile P = l := by
  intro l
  induction l with
  | nil => intro _; rfl
  | cons x xs ih =>
    intro h
    rw [List.takeWhile_cons, if_pos (h x (by simp))]
    rw [ih (fun y hy => h y (by simp [hy]))]

theorem dropWhile_all {P : Char → Bool} :
    ∀ {l : Str}, (∀ x ∈ l, P x = true) → l.dropWhile P = [] := by
  intro l
  induction l with
  | nil => intro _; rfl
  | cons x xs ih =>
    intro h
    rw [List.dropWhile_cons, if_pos (h x (by simp))]
    exact ih (fun y hy => h y (by simp [hy]))

theorem dropWhile_head_false {P : Char → Bool} :
    ∀ {l : Str} {x : Char} {xs : Str}, l.dropWhile P = x :: xs → P x = false := by
  intro l
  induction l with
  | nil => intro x xs h; simp [List.dropWhile] at h
  | cons y ys ih =>
    intro x xs h
    rw [List.dropWhile_cons] at h
    by_cases hy : P y = true
    · rw [if_pos hy] at h
      exact ih h
    · rw [if_neg hy] at h
      cases h
      simpa using hy

/-- A URL scheme as produced by `parseScheme`: every character is a
scheme character, the string is already lowercase, and it starts with an
ASCII letter (hence it is nonempty). -/
def ValidScheme (s : Str) : Prop :=
  (∀ c ∈ s, c ∈ schemeChars) ∧ lowerL s = s ∧ headIsAlpha s = true

theorem validScheme_ne_nil {s : Str} (h : ValidScheme s) : s ≠ [] := by
  intro hnil
  rw [hnil] at h
  exact absurd h.2.2 (by decide)

theorem schemeChars_no_colon : ∀ c ∈ schemeChars, notColon c = true := by decide

theorem toLower_mem_schemeChars : ∀ c ∈ schemeChars, Char.toLower c ∈ schemeChars := by decide

theorem toLower_idem_schemeChars :
    ∀ c ∈ schemeChars, Char.toLower (Char.toLower c) = Char.toLower c := by decide

theorem toLower_alpha_schemeChars :
    ∀ c ∈ schemeChars, c.isAlpha = true → (Char.toLower c).isAlpha = true := by decide

theorem parseScheme_valid (l : Str) :
    (parseScheme l).1 = [] ∨ ValidScheme (parseScheme l).1 := by
  unfold parseScheme
  dsimp only
  split
  · rename_i hcond
    obtain ⟨hmem, hne, hal, hsc⟩ := hcond
    right
    refine ⟨?_, ?_, ?_⟩
    · intro c hc
      rcases List.mem_map.1 hc with ⟨c', hc', rfl⟩
      exact toLower_mem_schemeChars c' (hsc c' hc')
    · show lowerL (lowerL (l.takeWhile notColon)) = lowerL (l.takeWhile notColon)
      unfold lowerL
      rw [List.map_map]
      exact List.map_congr_left fun c hc =>
        toLower_idem_schemeChars c (hsc c hc)
    · cases hpre : l.takeWhile notColon with
      | nil => exact absurd hpre hne
      | cons c t =>
        rw [hpre] at hal hsc
        show headIsAlpha (lowerL (c :: t)) = true
        show (Char.toLower c).isAlpha = true
        exact toLower_alpha_schemeChars c (hsc c (by simp)) hal
  · exact Or.inl rfl

theorem parseScheme_append (s r : Str) (h : ValidScheme s) :
    parseScheme (s ++ ':' :: r) = (s, r) := by
  obtain ⟨hsc, hlow, hal⟩ := h
  have hne : s ≠ [] := validScheme_ne_nil ⟨hsc, hlow, hal⟩
  have hcolon : ∀ x ∈ s, notColon x = true :=
    fun x hx => schemeChars_no_colon x (hsc x hx)
  have htw : (s ++ ':' :: r).takeWhile notColon = s := by
    rw [takeWhile_append_all hcolon (':' :: r)]
    rw [List.takeWhile_cons, if_neg (by decide)]
    simp
  have hdw : (s ++ ':' :: r).dropWhile notColon = ':' :: r := by
    rw [dropWhile_append_all hcolon (':' :: r)]
    rw [List.dropWhile_cons, if_neg (by decide)]
  unfold parseScheme
  dsimp only
  rw [htw, hdw]
  rw [if_pos ⟨List.mem_append_right s (by simp), hne, hal, hsc⟩]
  rw [Prod.mk.injEq]
  exact ⟨hlow, rfl⟩

theorem parseScheme_colon_head (z : Str) : parseScheme (':' :: z) = ([], ':' :: z) := by
  have htw : List.takeWhile notColon (':' :: z) = [] := by
    rw [List.takeWhile_cons, if_neg (by decide)]
  unfold parseScheme
  dsimp only
  rw [htw, if_neg (fun h => h.2.1 rfl)]

theorem notNetlocEnd_imp (c : Char) (h : notNetlocEnd c = true) :
    notHash c = true ∧ notQm c = true := by
  unfold notNetlocEnd at h
  unfold notHash notQm
  constructor
  · by_cases hc : c = '#'
    · rw [hc] at h
      exact absurd h (by decide)
    · simp [hc]
  · by_cases hc : c = '?'
    · rw [hc] at h
      exact absurd h (by decide)
    · simp [hc]

theorem notSlash_of_hash_qm (c : Char) (hh : notHash c = true) (hq : notQm c = true) :
    notNetlocEnd c = notSlash c := by
  unfold notHash at hh
  unfold notQm at hq
  unfold notNetlocEnd notSlash
  by_cases hc : c = '/'
  · simp [hc]
  · simp only [hc]
    have h1 : (c = '?') = False := by
      by_cases h : c = '?'
      · rw [h] at hq
        exact absurd hq (by decide)
      · simp [h]
    have h2 : (c = '#') = False := by
      by_cases h : c = '#'
      · rw [h] at hh
        exact absurd hh (by decide)
      · simp [h]
    simp [h1, h2]

theorem urlsplit_reconstruct (s X : Str) (hs : ValidScheme s)
    (hX : ∀ c ∈ X, notHash c = true ∧ notQm c = true) :
    urlsplitM (s ++ ':' :: '/' :: '/' :: X) =
      ⟨s, X.takeWhile notNetlocEnd, X.dropWhile notNetlocEnd, [], []⟩ := by
  have hdwX : ∀ c ∈ X.dropWhile notNetlocEnd, notHash c = true ∧ notQm c = true :=
    fun c hc => hX c (mem_of_mem_dropWhile hc)
  unfold urlsplitM
  rw [parseScheme_append s ('/' :: '/' :: X) hs]
  dsimp only
  rw [if_pos (by rfl), if_pos (by rfl)]
  have h3 : (X.dropWhile notNetlocEnd).takeWhile notHash = X.dropWhile notNetlocEnd :=
    takeWhile_all (fun c hc => (hdwX c hc).1)
  have h4 : (X.dropWhile notNetlocEnd).dropWhile notHash = [] :=
    dropWhile_all (fun c hc => (hdwX c hc).1)
  rw [List.drop_succ_cons, List.drop_succ_cons, List.drop_zero, h3, h4]
  have h5 : (X.dropWhile notNetlocEnd).takeWhile notQm = X.dropWhile notNetlocEnd :=
    takeWhile_all (fun c hc => (hdwX c hc).2)
  have h6 : (X.dropWhile notNetlocEnd).dropWhile notQm = [] :=
    dropWhile_all (fun c hc => (hdwX c hc).2)
  rw [h5, h6, List.drop_nil]

theorem urlsplitM_scheme_valid (l : Str) :
    (urlsplitM l).scheme = [] ∨ ValidScheme (urlsplitM l).scheme :=
  parseScheme_valid l

theorem urlsplitM_netloc_chars (l : Str) :
    ∀ c ∈ (urlsplitM l).netloc, notNetlocEnd c = true := by
  intro c hc
  unfold urlsplitM at hc
  dsimp only at hc
  by_cases h : (parseScheme l).2.take 2 = ['/', '/']
  · rw [if_pos h] at hc
    exact (mem_of_mem_takeWhile hc).1
  · rw [if_neg h] at hc
    simp at hc

theorem urlsplitM_path_chars (l : Str) :
    ∀ c ∈ (urlsplitM l).path, notHash c = true ∧ notQm c = true := by
  intro c hc
  unfold urlsplitM at hc
  dsimp only at hc
  have h1 := mem_of_mem_takeWhile hc
  have h2 := mem_of_mem_takeWhile h1.2
  exact ⟨h2.1, h1.1⟩

theorem mem_lastSeg {p : Str} {c : Char} (h : c ∈ lastSeg p) :
    c ∈ p ∧ notSlash c = true := by
  unfold lastSeg at h
  rw [List.mem_reverse] at h
  have h1 := mem_of_mem_takeWhile h
  exact ⟨List.mem_reverse.1 h1.2, h1.1⟩

theorem mem_splitparams {p : Str} {c : Char} (h : c ∈ (splitparamsM p).1) : c ∈ p := by
  unfold splitparamsM at h
  by_cases h1 : '/' ∈ p
  · rw [if_pos h1] at h
    by_cases h2 : ';' ∈ lastSeg p
    · rw [if_pos h2] at h
      dsimp only at h
      rcases List.mem_append.1 h with h | h
      · rw [List.mem_reverse] at h
        exact List.mem_reverse.1 (mem_of_mem_dropWhile h)
      · exact (mem_lastSeg (mem_of_mem_takeWhile h).2).1
    · rw [if_neg h2] at h
      exact h
  · rw [if_neg h1] at h
    exact (mem_of_mem_takeWhile h).2

theorem urlparseM_scheme_eq (l : Str) : (urlparseM l).scheme = (urlsplitM l).scheme := rfl

theorem urlparseM_netloc_eq (l : Str) : (urlparseM l).netloc = (urlsplitM l).netloc := rfl

theorem urlparseM_path_chars (l : Str) :
    ∀ c ∈ (urlparseM l).path, notHash c = true ∧ notQm c = true := by
  intro c hc
  unfold urlparseM at hc
  dsimp only at hc
  by_cases hg : (urlsplitM l).scheme ∈ usesParams ∧ ';' ∈ (urlsplitM l).path
  · rw [if_pos hg] at hc
    exact urlsplitM_path_chars l c (mem_splitparams hc)
  · rw [if_neg hg] at hc
    exact urlsplitM_path_chars l c hc

/-- The last `/`-separated segment of the path contains no `;` — the
state in which `_splitparams` leaves a path. -/
def NoSemiLastSeg (p : Str) : Prop := ∀ c ∈ lastSeg p, notSemi c = true

theorem notSemi_of_ne (c : Char) (h : ¬ c = ';') : notSemi c = true := by
  unfold notSemi
  simp [h]

theorem notSlash_of_ne (c : Char) (h : ¬ c = '/') : notSlash c = true := by
  unfold notSlash
  simp [h]

theorem takeWhile_dropWhile_nil (P : Char → Bool) (l : Str) :
    (l.dropWhile P).takeWhile P = [] := by
  cases hd : l.dropWhile P with
  | nil => rfl
  | cons x xs =>
    rw [List.takeWhile_cons, dropWhile_head_false hd]
    simp

/-- A string all of whose characters avoid `/` is its own last segment. -/
theorem lastSeg_of_all {l : Str} (h : ∀ x ∈ l, notSlash x = true) : lastSeg l = l := by
  unfold lastSeg
  rw [takeWhile_all (fun x hx => h x (List.mem_reverse.1 hx)), List.reverse_reverse]

/-- Appending a slash-free segment after a part that ends in `/` (or is
slash-terminated in the sense that its reversed `takeWhile` is empty)
makes that segment the last segment. -/
theorem lastSeg_append_seg (ini seg : Str)
    (hseg : ∀ x ∈ seg, notSlash x = true)
    (hini : ini.reverse.takeWhile notSlash = []) :
    lastSeg (ini ++ seg) = seg := by
  unfold lastSeg
  rw [List.reverse_append]
  rw [takeWhile_append_all (fun x hx => hseg x (List.mem_reverse.1 hx))]
  rw [hini, List.append_nil, List.reverse_reverse]

theorem splitparams_noSemi (p : Str) : NoSemiLastSeg (splitparamsM p).1 := by
  unfold splitparamsM
  by_cases h1 : '/' ∈ p
  · rw [if_pos h1]
    by_cases h2 : ';' ∈ lastSeg p
    · rw [if_pos h2]
      dsimp only
      intro c hc
      have hseg : lastSeg ((p.reverse.dropWhile notSlash).reverse ++
          (lastSeg p).takeWhile notSemi) = (lastSeg p).takeWhile notSemi := by
        refine lastSeg_append_seg _ _ ?_ ?_
        · intro x hx
          exact (mem_lastSeg (mem_of_mem_takeWhile hx).2).2
        · rw [List.reverse_reverse]
          exact takeWhile_dropWhile_nil notSlash p.reverse
      rw [hseg] at hc
      exact (mem_of_mem_takeWhile hc).1
    · rw [if_neg h2]
      intro c hc
      exact notSemi_of_ne c (fun hcs => h2 (hcs ▸ hc))
  · rw [if_neg h1]
    intro c hc
    have hseg : lastSeg (p.takeWhile notSemi) = p.takeWhile notSemi := by
      refine lastSeg_of_all ?_
      intro x hx
      have hxp := (mem_of_mem_takeWhile hx).2
      exact notSlash_of_ne x (fun hxe => h1 (hxe ▸ hxp))
    rw [hseg] at hc
    exact (mem_of_mem_takeWhile hc).1

theorem urlparseM_noSemi (l : Str) :
    (urlparseM l).scheme ∈ usesParams → NoSemiLastSeg (urlparseM l).path := by
  intro hup
  have hup' : (urlsplitM l).scheme ∈ usesParams := hup
  unfold urlparseM
  dsimp only
  by_cases hg : (urlsplitM l).scheme ∈ usesParams ∧ ';' ∈ (urlsplitM l).path
  · rw [if_pos hg]
    exact splitparams_noSemi _
  · rw [if_neg hg]
    intro c hc
    have hcp : c ∈ (urlsplitM l).path := (mem_lastSeg hc).1
    refine notSemi_of_ne c (fun hcs => ?_)
    exact hg ⟨hup', hcs ▸ hcp⟩

/-- Re-parsing a reconstructed URL `scheme://netloc·path` recovers the
scheme, and the netloc and path of the re-parse concatenate to the
original `netloc ++ path` (the boundary may shift for degenerate
netloc-free forms, but the rebuilt string is unchanged). -/
theorem urlparse_reconstruct (s n p : Str)
    (hs : ValidScheme s)
    (hn : ∀ c ∈ n, notNetlocEnd c = true)
    (hp : ∀ c ∈ p, notHash c = true ∧ notQm c = true)
    (hsemi : s ∈ usesParams → NoSemiLastSeg p) :
    (urlparseM (s ++ ':' :: '/' :: '/' :: (n ++ p))).scheme = s ∧
    (urlparseM (s ++ ':' :: '/' :: '/' :: (n ++ p))).netloc ++
      (urlparseM (s ++ ':' :: '/' :: '/' :: (n ++ p))).path = n ++ p := by
  have hX : ∀ c ∈ n ++ p, notHash c = true ∧ notQm c = true := by
    intro c hc
    rcases List.mem_append.1 hc with hc | hc
    · exact notNetlocEnd_imp c (hn c hc)
    · exact hp c hc
  have hsplit := urlsplit_reconstruct s (n ++ p) hs hX
  have hd_eq : (n ++ p).dropWhile notNetlocEnd = p.dropWhile notSlash := by
    rw [dropWhile_append_all hn p]
    exact dropWhile_congr_mem (fun x hx => notSlash_of_hash_qm x (hp x hx).1 (hp x hx).2)
  unfold urlparseM
  rw [hsplit]
  dsimp only
  by_cases hg : s ∈ usesParams ∧ ';' ∈ (n ++ p).dropWhile notNetlocEnd
  · rw [if_pos hg]
    have hstable : splitparamsM ((n ++ p).dropWhile notNetlocEnd) =
        ((n ++ p).dropWhile notNetlocEnd, []) := by
      rw [hd_eq]
      rw [hd_eq] at hg
      have hsm := hg.2
      by_cases hslash : '/' ∈ p
      · cases hd : p.dropWhile notSlash with
        | nil =>
          rw [hd] at hsm
          simp at hsm
        | cons x xs =>
          have hx : x = '/' := by
            have := dropWhile_head_false hd
            unfold notSlash at this
            simpa using this
          have hpdec : p.takeWhile notSlash ++ (x :: xs) = p := by
            rw [← hd]
            exact List.takeWhile_append_dropWhile notSlash p
          have hlast : lastSeg p = lastSeg (x :: xs) := by
            conv =>
              lhs
              rw [← hpdec]
            unfold lastSeg
            rw [List.reverse_append]
            rw [takeWhile_append_stop ⟨x, by simp, by rw [hx]; decide⟩]
          unfold splitparamsM
          rw [if_pos (show '/' ∈ x :: xs by rw [hx]; exact List.mem_cons_self _ _)]
          rw [if_neg ?hsemid]
          case hsemid =>
            intro hmem
            have hns := hsemi hg.1
            rw [← hlast] at hmem
            have := hns ';' hmem
            exact absurd this (by decide)
      · have hall : ∀ x ∈ p, notSlash x = true :=
          fun x hx => notSlash_of_ne x (fun hxe => hslash (hxe ▸ hx))
        rw [dropWhile_all hall] at hsm
        simp at hsm
    rw [hstable]
    dsimp only
    exact ⟨rfl, List.takeWhile_append_dropWhile notNetlocEnd (n ++ p)⟩
  · rw [if_neg hg]
    exact ⟨rfl, List.takeWhile_append_dropWhile notNetlocEnd (n ++ p)⟩

/-! ## C4: normalisation can raise, and is only conditionally idempotent -/

theorem clean_url_shape (u : Str) :
    clean_url u = (urlparseM u).scheme ++ ':' :: '/' :: '/' ::
      ((urlparseM u).netloc ++ (urlparseM u).path) := by
  unfold clean_url
  dsimp only
  simp [List.append_assoc]

/-- Idempotence of the non-raising computation: when the parse of `u`
detects a nonempty scheme, re-normalising the normal form of `u` gives
the normal form again (for scheme-less inputs the normal form `://…` is
re-parsed as a bare path and is not a fixed point). -/
theorem clean_url_idempotent_on_schemed (u : Str)
    (h : (urlparseM u).scheme ≠ []) :
    clean_url (clean_url u) = clean_url u := by
  have hvs : ValidScheme (urlparseM u).scheme := by
    rcases urlsplitM_scheme_valid u with h0 | h0
    · exact absurd h0 h
    · exact h0
  have hn : ∀ c ∈ (urlparseM u).netloc, notNetlocEnd c = true :=
    urlsplitM_netloc_chars u
  have hp := urlparseM_path_chars u
  have hsemi := urlparseM_noSemi u
  have hrec := urlparse_reconstruct (urlparseM u).scheme (urlparseM u).netloc
    (urlparseM u).path hvs hn hp hsemi
  calc clean_url (clean_url u)
      = clean_url ((urlparseM u).scheme ++ ':' :: '/' :: '/' ::
          ((urlparseM u).netloc ++ (urlparseM u).path)) := by rw [clean_url_shape u]
    _ = (urlparseM u).scheme ++ ':' :: '/' :: '/' ::
          ((urlparseM u).netloc ++ (urlparseM u).path) := by
        rw [clean_url_shape ((urlparseM u).scheme ++ ':' :: '/' :: '/' ::
          ((urlparseM u).netloc ++ (urlparseM u).path))]
        rw [hrec.1, hrec.2]
    _ = clean_url u := (clean_url_shape u).symm

/-- The condition under which CPython's `urlsplit` raises
`ValueError("Invalid IPv6 URL")`: the netloc contains `[` without `]`
or `]` without `[`. -/
def bracketMismatch (netloc : Str) : Bool :=
  (netloc.contains '[' && !(netloc.contains ']')) ||
  (netloc.contains ']' && !(netloc.contains '['))

/-- `urlsplit` with its error path: `none` models the raised
`ValueError`; the check runs on the netloc taken after `//` (an input
without the `//` branch has an empty netloc and never raises). -/
def urlsplitE (l : Str) : Option UrlSplit :=
  if bracketMismatch (urlsplitM l).netloc = true then none else some (urlsplitM l)

/-- `urlparse` with its error path: the parameter split never raises,
so the only failure is the one propagated from `urlsplit`. -/
def urlparseE (l : Str) : Option UrlParse :=
  if bracketMismatch (urlsplitM l).netloc = true then none else some (urlparseM l)

/-- `clean_url` as the program executes it: the `ValueError` escapes
from the `urlparse` call, otherwise the reconstruction is returned. -/
def clean_urlE (url : Str) : Option Str :=
  (urlparseE url).map (fun parsed =>
    parsed.scheme ++ (':' :: '/' :: '/' :: []) ++ parsed.netloc ++ parsed.path)

theorem clean_urlE_eq (u : Str) :
    clean_urlE u =
      if bracketMismatch (urlsplitM u).netloc = true then none
      else some (clean_url u) := by
  unfold clean_urlE urlparseE
  by_cases h : bracketMismatch (urlsplitM u).netloc = true
  · rw [if_pos h, if_pos h]
    rfl
  · rw [if_neg h, if_neg h]
    rfl

/-- Counterexample to claim C4 as stated: normalisation is neither
total nor idempotent.  On `"http://[x"` the program's `urlparse` raises
(no string is produced); the scheme-less `"foo"` normalises to
`"://foo"` whose normal form `"://://foo"` differs; and `"mailto:[x"`
normalises successfully to `"mailto://[x"`, on which a second
normalisation raises. -/
theorem clean_url_not_total_counterexample :
    clean_urlE "http://[x".toList = none ∧
    (clean_urlE "foo".toList = some "://foo".toList ∧
     clean_urlE "://foo".toList = some "://://foo".toList ∧
     ¬ "://://foo".toList = "://foo".toList) ∧
    ((urlparseM "mailto:[x".toList).scheme ≠ [] ∧
     clean_urlE "mailto:[x".toList = some "mailto://[x".toList ∧
     clean_urlE "mailto://[x".toList = none) := by
  exact ⟨by decide, ⟨by decide, by decide, by decide⟩,
    ⟨by decide, by decide, by decide⟩⟩

/-- Claim C4, amended: URL normalisation fails exactly on inputs whose
netloc has mismatched square brackets (the raised `Invalid IPv6 URL`
`ValueError`, modelled as `none`), so it is not total; when it
succeeds it returns the `scheme://netloc+path` reconstruction; and it
is idempotent only conditionally: whenever the parse of `u` has a
nonempty scheme (in particular for every `http`/`https` URL),
normalisation succeeds on `u`, and normalising the result does not
raise, the result is a fixed point.  Scheme-less inputs are never
fixed points, and a successful normalisation may raise on the second
pass (see the counterexample). -/
theorem clean_urlE_partial_idempotent :
    (∀ u : Str, clean_urlE u = none ↔ bracketMismatch (urlsplitM u).netloc = true) ∧
    (∀ u v : Str, clean_urlE u = some v → v = clean_url u) ∧
    (∀ u v : Str, (urlparseM u).scheme ≠ [] → clean_urlE u = some v →
      clean_urlE v ≠ none → clean_urlE v = some v) := by
  have hsome : ∀ u v : Str, clean_urlE u = some v → v = clean_url u := by
    intro u v h
    rw [clean_urlE_eq] at h
    by_cases hb : bracketMismatch (urlsplitM u).netloc = true
    · rw [if_pos hb] at h
      exact absurd h (by simp)
    · rw [if_neg hb] at h
      exact (Option.some.inj h).symm
  refine ⟨?_, hsome, ?_⟩
  · intro u
    rw [clean_urlE_eq]
    by_cases h : bracketMismatch (urlsplitM u).netloc = true
    · simp [h]
    · simp [h]
  · intro u v hs hu hv
    have hvcu : v = clean_url u := hsome u v hu
    rw [clean_urlE_eq] at hv ⊢
    by_cases hb : bracketMismatch (urlsplitM v).netloc = true
    · rw [if_pos hb] at hv
      exact absurd rfl hv
    · rw [if_neg hb]
      rw [hvcu, clean_url_idempotent_on_schemed u hs]

theorem clean_urlE_partial_idempotent_witness :
    ((urlparseM "https://a.com/p?x=1".toList).scheme ≠ [] ∧
     clean_urlE "https://a.com/p?x=1".toList = some "https://a.com/p".toList ∧
     clean_urlE "https://a.com/p".toList ≠ none) ∧
    clean_urlE "https://a.com/p".toList = some "https://a.com/p".toList :=
  ⟨⟨by decide, by decide, by decide⟩,
   clean_urlE_partial_idempotent.2.2 "https://a.com/p?x=1".toList
     "https://a.com/p".toList (by decide) (by decide) (by decide)⟩

/-! ## C5: the scope filter -/

theorem urlsplit_colon_head (z : Str) :
    (urlsplitM (':' :: z)).scheme = [] ∧ (urlsplitM (':' :: z)).netloc = [] := by
  have hne : ¬ (':' :: z).take 2 = ['/', '/'] := by
    cases z with
    | nil => decide
    | cons a t =>
      intro hcon
      rw [List.take_succ_cons] at hcon
      injection hcon with hc1 hc2
      exact absurd hc1 (by decide)
  unfold urlsplitM
  rw [parseScheme_colon_head]
  dsimp only
  rw [if_neg hne]
  exact ⟨rfl, rfl⟩

theorem clean_url_scheme_of_netloc (v : Str)
    (hn : (urlparseM (clean_url v)).netloc ≠ []) :
    (urlparseM (clean_url v)).scheme ≠ [] := by
  by_cases h : (urlparseM v).scheme = []
  · exfalso
    have hshape := clean_url_shape v
    rw [h, List.nil_append] at hshape
    rw [hshape] at hn
    exact hn ((urlsplit_colon_head
      ('/' :: '/' :: ((urlparseM v).netloc ++ (urlparseM v).path))).2)
  · have hvs : ValidScheme (urlparseM v).scheme := by
      rcases urlsplitM_scheme_valid v with h0 | h0
      · exact absurd h0 h
      · exact h0
    have hrec := urlparse_reconstruct (urlparseM v).scheme (urlparseM v).netloc
      (urlparseM v).path hvs (urlsplitM_netloc_chars v) (urlparseM_path_chars v)
      (urlparseM_noSemi v)
    intro h0
    rw [clean_url_shape v, hrec.1] at h0
    exact validScheme_ne_nil hvs h0

theorem is_in_scope_iff (t ps u : Str) :
    is_in_scope t ps u = true ↔
      ((urlparseM u).netloc = t ∧
       ((urlparseM u).scheme = [] ∨ (urlparseM u).scheme = httpL ∨
        (urlparseM u).scheme = httpsL) ∧
       (ps = [] ∨ ps.isPrefixOf (urlparseM u).path = true)) := by
  unfold is_in_scope
  dsimp only
  split_ifs with h1 h2 h3
  · simp only [Bool.false_eq_true, false_iff]
    rintro ⟨hh, _, _⟩
    exact h1 hh
  · simp only [Bool.false_eq_true, false_iff]
    rintro ⟨_, hsch, _⟩
    rcases hsch with h | h | h
    · exact h2.1 h
    · exact h2.2.1 h
    · exact h2.2.2 h
  · simp only [Bool.false_eq_true, false_iff]
    rintro ⟨_, _, hps⟩
    rcases hps with h | h
    · exact h3.1 h
    · exact h3.2 h
  · simp only [true_iff]
    refine ⟨not_ne_iff.1 h1, ?_, ?_⟩
    · by_cases hs0 : (urlparseM u).scheme = []
      · exact Or.inl hs0
      · by_cases hsh : (urlparseM u).scheme = httpL
        · exact Or.inr (Or.inl hsh)
        · by_cases hss : (urlparseM u).scheme = httpsL
          · exact Or.inr (Or.inr hss)
          · exact absurd ⟨hs0, hsh, hss⟩ h2
    · by_cases hp0 : ps = []
      · exact Or.inl hp0
      · by_cases hpre : ps.isPrefixOf (urlparseM u).path = true
        · exact Or.inr hpre
        · exact absurd ⟨hp0, hpre⟩ h3

/-- Claim C5: for every normalised URL (an output of `clean_url`) and a
nonempty configured `target_domain`, the scope filter accepts the URL
exactly when its host equals `target_domain` (so subdomains are
rejected), its scheme is `http` or `https` (any other scheme is
rejected), and, when a nonempty `path_scope` is configured, its path
starts with `path_scope`; with `path_scope = "/docs/"` it accepts
`/docs/intro` and rejects `/blog/post`, and it rejects subdomains and
an in-domain `ftp` URL. -/
theorem scope_filter_characterization :
    (∀ target pscope u v : Str, target ≠ [] → u = clean_url v →
      (is_in_scope target pscope u = true ↔
        ((urlparseM u).netloc = target ∧
         ((urlparseM u).scheme = httpL ∨ (urlparseM u).scheme = httpsL) ∧
         (pscope ≠ [] → pscope.isPrefixOf (urlparseM u).path = true)))) ∧
    is_in_scope "a.com".toList "/docs/".toList
      (clean_url "https://a.com/docs/intro".toList) = true ∧
    is_in_scope "a.com".toList "/docs/".toList
      (clean_url "https://a.com/blog/post".toList) = false ∧
    is_in_scope "a.com".toList []
      (clean_url "https://sub.a.com/x".toList) = false ∧
    is_in_scope "a.com".toList []
      (clean_url "ftp://a.com/x".toList) = false := by
  refine ⟨?_, by decide, by decide, by decide, by decide⟩
  intro t ps u v ht hu
  subst hu
  rw [is_in_scope_iff]
  constructor
  · rintro ⟨h1, h2, h3⟩
    refine ⟨h1, ?_, ?_⟩
    · rcases h2 with h2 | h2 | h2
      · exfalso
        refine clean_url_scheme_of_netloc v ?_ h2
        rw [h1]
        exact ht
      · exact Or.inl h2
      · exact Or.inr h2
    · intro hps
      rcases h3 with h3 | h3
      · exact absurd h3 hps
      · exact h3
  · rintro ⟨h1, h2, h3⟩
    refine ⟨h1, ?_, ?_⟩
    · rcases h2 with h2 | h2
      · exact Or.inr (Or.inl h2)
      · exact Or.inr (Or.inr h2)
    · by_cases hps : ps = []
      · exact Or.inl hps
      · exact Or.inr (h3 hps)

theorem scope_filter_characterization_witness :
    ("a.com".toList ≠ ([] : Str)) ∧
    (is_in_scope "a.com".toList "/docs/".toList
        (clean_url "https://a.com/docs/intro".toList) = true ↔
      ((urlparseM (clean_url "https://a.com/docs/intro".toList)).netloc = "a.com".toList ∧
       ((urlparseM (clean_url "https://a.com/docs/intro".toList)).scheme = httpL ∨
        (urlparseM (clean_url "https://a.com/docs/intro".toList)).scheme = httpsL) ∧
       ("/docs/".toList ≠ ([] : Str) →
        "/docs/".toList.isPrefixOf
          (urlparseM (clean_url "https://a.com/docs/intro".toList)).path = true))) :=
  ⟨by decide,
   scope_filter_characterization.1 "a.com".toList "/docs/".toList _
     "https://a.com/docs/intro".toList (by decide) rfl⟩
